import Mathlib

/-!
Verification of the beat_this_cpp measure-numbering and audio front-end code.

The source is C++ (`src/Source/main.cpp` and the C API translation unit).
Times are modelled as rationals (`ℚ`): the C++ code only compares, subtracts
and averages `float` values, and every claim under study concerns the
algorithmic structure, not floating-point rounding.  The matching tolerance
`1e-6f` is modelled as the rational `1/1000000`.
-/

set_option allowUnsafeReducibility true in
attribute [semireducible] Rat.sub Rat.add Rat.mul Rat.inv Rat.div

namespace BeatThisCpp

/-- Tolerance used by the numbering pass (`1e-6f` in `calculate_beat_counts`). -/
def eps : ℚ := mkRat 1 1000000

/-- `std::abs` on the modelled sample values. -/
def fabs (x : ℚ) : ℚ := if x < 0 then -x else x

/-- `std::lower_bound` on a random-access range, embedded as the standard
binary search: while `len > 0`, probe `first + len/2`; if the element is `< v`
move `first` past it, else shrink `len` to the half.  A fuel argument makes the
recursion structural; `len` decreases by at least one per step, so fuel `len`
is always enough. -/
def lowerBoundAux (a : List ℚ) (v : ℚ) : Nat → Nat → Nat → Nat
  | first, _, 0 => first
  | first, len, fuel + 1 =>
    if len = 0 then first
    else
      let half := len / 2
      if a.getD (first + half) 0 < v then
        lowerBoundAux a v (first + half + 1) (len - (half + 1)) fuel
      else
        lowerBoundAux a v first half fuel

/-- `std::lower_bound(beats.begin(), beats.end(), v) - beats.begin()`. -/
def lower_bound (a : List ℚ) (v : ℚ) : Nat :=
  lowerBoundAux a v 0 a.length a.length

/-- The diagnostic messages `calculate_beat_counts` writes to `std::cerr`. -/
inductive LogMsg where
  /-- "Error: Not all downbeats are beats. Cannot calculate beat counts." -/
  | errorNotAllDownbeatsAreBeats
  /-- "WARNING: There are more beats in the pickup measure than in the first
  measure. ..." -/
  | warnPickupLongerThanFirstMeasure
  /-- "WARNING: There are less than two downbeats in the predictions. ..." -/
  | warnFewerThanTwoDownbeats
deriving DecidableEq

/-- The pickup-measure handling of `calculate_beat_counts`
(`main.cpp` lines 628-651): with at least two downbeats, take the
`lower_bound` indices of the first two downbeats in `beats` and compare the
pickup length with the first full measure; otherwise start at 1 with a
warning.  Index arithmetic is `int` in the source, hence `Int` here. -/
def start_counter (beats downbeats : List ℚ) : Int × List LogMsg :=
  if 2 ≤ downbeats.length then
    let first_downbeat_idx : Int := lower_bound beats (downbeats.getD 0 0)
    let second_downbeat_idx : Int := lower_bound beats (downbeats.getD 1 0)
    let beats_in_first_measure := second_downbeat_idx - first_downbeat_idx
    let pickup_beats := first_downbeat_idx
    if pickup_beats < beats_in_first_measure then
      (beats_in_first_measure - pickup_beats, [])
    else
      (1, [LogMsg.warnPickupLongerThanFirstMeasure])
  else
    (1, [LogMsg.warnFewerThanTwoDownbeats])

/-- The numbering loop of `calculate_beat_counts` (`main.cpp` lines 653-670):
walk the beats carrying `counter` and the index of the next expected downbeat;
a beat within `eps` of that downbeat resets the counter to 1 and advances the
index, any other beat increments the counter; the updated counter is recorded
for the beat.  `-1` is the sentinel the source stores when the downbeat list
is exhausted; the `idx < length` guard keeps it from ever being compared. -/
def countLoop (downbeats : List ℚ) : Int → Nat → List ℚ → List Int
  | _, _, [] => []
  | counter, idx, b :: bs =>
    if idx < downbeats.length ∧ fabs (b - downbeats.getD idx (-1)) < eps then
      1 :: countLoop downbeats 1 (idx + 1) bs
    else
      (counter + 1) :: countLoop downbeats (counter + 1) idx bs

/-- `calculate_beat_counts` (`main.cpp` lines 611-672): returns the per-beat
ordinals together with the diagnostics written to `std::cerr`.  The source
allocates a zero-filled vector and returns it unchanged when either list is
empty, or (after printing an error) when some downbeat is not exactly equal to
a beat (`std::set<float>` lookup is exact equality); otherwise every entry is
overwritten by the numbering loop. -/
def calculate_beat_counts (beats downbeats : List ℚ) : List Int × List LogMsg :=
  if beats.isEmpty ∨ downbeats.isEmpty then
    (List.replicate beats.length 0, [])
  else if ∀ db ∈ downbeats, db ∈ beats then
    let sc := start_counter beats downbeats
    (countLoop downbeats sc.1 0 beats, sc.2)
  else
    (List.replicate beats.length 0, [LogMsg.errorNotAllDownbeatsAreBeats])

/-- Following the spec's words (for comparison with the source's
`lower_bound`): the index of the first element that is `≥ v`, the list length
when there is none. -/
def firstIdxGe (a : List ℚ) (v : ℚ) : Nat :=
  a.findIdx (fun b => decide (v ≤ b))

/-- `convert_to_mono` (`main.cpp` lines 704-721).  `channels == 1` returns the
buffer unchanged.  Otherwise `num_frames = audio_data.size() / channels`
divides a `size_t` by an `int`: the `int` is converted to `size_t`
(semantics: value modulo `2^64`), so a negative channel count yields zero
frames on any realistic buffer, and `channels == 0` divides by zero, which is
undefined behaviour in C++ (modelled as `none`).  Each frame is the running
sum of its `channels` samples divided by `channels`. -/
def convert_to_mono (audio_data : List ℚ) (channels : Int) : Option (List ℚ) :=
  if channels = 1 then some audio_data
  else if channels = 0 then none
  else
    let cz : Nat := (channels % (2 : Int) ^ 64).toNat
    let num_frames := audio_data.length / cz
    some <| (List.range num_frames).map fun i =>
      ((List.range channels.toNat).foldl
        (fun sum ch => sum + audio_data.getD (i * cz + ch) 0) 0) / (channels : ℚ)

/-- `BeatResult` (`beat_this.h` / `main.cpp`): beat times, downbeat times and
per-beat ordinals returned by `BeatThis::process_audio`. -/
structure BeatResult where
  beats : List ℚ
  downbeats : List ℚ
  beat_counts : List Int
deriving DecidableEq

/-- Observable outcome of a call to `BeatThis::process_audio`: a returned
`BeatResult`, a thrown `std::runtime_error` (its message), or undefined
behaviour (division by zero in `convert_to_mono`). -/
inductive ProcOutcome where
  | ok (result : BeatResult)
  | error (msg : String)
  | undefinedBehavior
deriving DecidableEq

/-- `BeatThis::process_audio` (`main.cpp` lines 724-770).  The stages whose
sources are not part of the numbering/front-end code under analysis are
injected: `resampler` models `resample_audio` (libsoxr; `none` = backend
failure, which the source turns into `throw std::runtime_error("Failed to
resample audio")`, re-thrown by the outer catch with the prefix
"Processing error: "), and `pipeline` models
`MelSpectrogram → InferenceProcessor → Postprocessor` (their implementation
files are external to `src/`), mapping the resampled mono buffer to beat and
downbeat times or throwing.  The function performs no validation of
`samplerate` or `channels`. -/
def process_audio
    (resampler : List ℚ → Int → Option (List ℚ))
    (pipeline : List ℚ → Except String (List ℚ × List ℚ))
    (audio_data : List ℚ) (samplerate channels : Int) : ProcOutcome :=
  match convert_to_mono audio_data channels with
  | none => ProcOutcome.undefinedBehavior
  | some mono_audio =>
    let resampled :=
      if samplerate ≠ 22050 then resampler mono_audio samplerate
      else some mono_audio
    match resampled with
    | none => ProcOutcome.error "Processing error: Failed to resample audio"
    | some resampled_buffer =>
      match pipeline resampled_buffer with
      | Except.error e => ProcOutcome.error ("Processing error: " ++ e)
      | Except.ok (beat_times, downbeat_times) =>
        ProcOutcome.ok
          ⟨beat_times, downbeat_times,
           (calculate_beat_counts beat_times downbeat_times).1⟩

/-- The C API result struct (`beat_this_api.h`): `none` models a null
pointer. -/
structure BeatThisResult where
  beats : Option (List ℚ)
  num_beats : Int
  downbeats : Option (List ℚ)
  num_downbeats : Int
deriving DecidableEq

/-- `BeatThis_process_audio` (C API translation unit, lines 100-169).  The
result starts zero-initialised (`{nullptr, 0, nullptr, 0}`) and is returned
unchanged when `context` is null.  Otherwise: stereo input is averaged
pairwise (`original_channels == 2`; any other channel count is copied as-is),
the buffer is resampled unless already at 22050 Hz (failure returns the
zeroed result), and the injected `pipeline` (spectrogram, inference,
post-processing — sources external to `src/`) yields the beat and downbeat
times copied into the result; a thrown exception leaves the zeroed result. -/
def BeatThis_process_audio {Ctx : Type}
    (context : Option Ctx)
    (resampler : List ℚ → Int → Option (List ℚ))
    (pipeline : Ctx → List ℚ → Except String (List ℚ × List ℚ))
    (audio_data : List ℚ) (num_samples samplerate original_channels : Int) :
    BeatThisResult :=
  match context with
  | none => ⟨none, 0, none, 0⟩
  | some ctx =>
    let mono_audio : List ℚ :=
      if original_channels = 2 then
        (List.range (num_samples.tdiv 2).toNat).map fun i =>
          (audio_data.getD (2 * i) 0 + audio_data.getD (2 * i + 1) 0) / 2
      else
        (List.range num_samples.toNat).map fun i => audio_data.getD i 0
    let resampled :=
      if samplerate ≠ 22050 then resampler mono_audio samplerate
      else some mono_audio
    match resampled with
    | none => ⟨none, 0, none, 0⟩
    | some resampled_buffer =>
      match pipeline ctx resampled_buffer with
      | Except.error _ => ⟨none, 0, none, 0⟩
      | Except.ok (beat_times, downbeat_times) =>
        ⟨some beat_times, beat_times.length,
         some downbeat_times, downbeat_times.length⟩

/-! ### Basic facts about the tolerance and `std::abs` -/

theorem eps_pos : 0 < eps := by decide

theorem fabs_sub_ge {x y : ℚ} (h : x + eps ≤ y ∨ y + eps ≤ x) :
    eps ≤ fabs (x - y) := by
  have he := eps_pos
  unfold fabs
  rcases h with h | h
  · rw [if_pos (by linarith)]; linarith
  · rw [if_neg (by linarith)]; linarith

theorem fabs_sub_self_lt (x : ℚ) : fabs (x - x) < eps := by
  unfold fabs
  rw [sub_self, if_neg (lt_irrefl 0)]
  exact eps_pos

theorem getD_eq_getElem {α : Type} (l : List α) (i : Nat) (d : α)
    (h : i < l.length) : l.getD i d = l[i] := by
  rw [List.getD_eq_getElem?_getD, List.getElem?_eq_getElem h, Option.getD_some]

theorem sorted_le_getElem {l : List ℚ} (hs : l.Pairwise (· ≤ ·)) {i j : Nat}
    (hij : i ≤ j) (hj : j < l.length) :
    l.get ⟨i, Nat.lt_of_le_of_lt hij hj⟩ ≤ l.get ⟨j, hj⟩ := by
  rcases Nat.eq_or_lt_of_le hij with rfl | hlt
  · exact le_refl _
  · exact List.pairwise_iff_getElem.mp hs i j _ hj hlt

/-! ### `std::lower_bound` computes the first index with element `≥ v` -/

theorem lowerBoundAux_spec (a : List ℚ) (v : ℚ) (hs : a.Pairwise (· ≤ ·)) :
    ∀ (fuel len first : Nat), len ≤ fuel → first + len ≤ a.length →
      (∀ i, i < first → ∀ h : i < a.length, a[i] < v) →
      (∀ i, first + len ≤ i → ∀ h : i < a.length, v ≤ a[i]) →
      first ≤ lowerBoundAux a v first len fuel ∧
      lowerBoundAux a v first len fuel ≤ first + len ∧
      (∀ i, i < lowerBoundAux a v first len fuel → ∀ h : i < a.length, a[i] < v) ∧
      (∀ i, lowerBoundAux a v first len fuel ≤ i → ∀ h : i < a.length, v ≤ a[i]) := by
  intro fuel
  induction fuel with
  | zero =>
    intro len first hlf hbound hlow hhigh
    have hlen : len = 0 := Nat.le_zero.mp hlf
    subst hlen
    unfold lowerBoundAux
    exact ⟨le_refl _, by omega, hlow, fun i hi h => hhigh i (by omega) h⟩
  | succ fuel ih =>
    intro len first hlf hbound hlow hhigh
    by_cases hlen : len = 0
    · subst hlen
      have heq : lowerBoundAux a v first 0 (fuel + 1) = first := rfl
      rw [heq]
      exact ⟨le_refl _, by omega, hlow, fun i hi h => hhigh i (by omega) h⟩
    · have hhalf : len / 2 < len := Nat.div_lt_self (by omega) (by omega)
      have hmid : first + len / 2 < a.length := by omega
      simp only [lowerBoundAux, if_neg hlen]
      rw [getD_eq_getElem a _ 0 hmid]
      by_cases hlt : a[first + len / 2] < v
      · rw [if_pos hlt]
        have h1 : len - (len / 2 + 1) ≤ fuel := by omega
        have h2 : first + len / 2 + 1 + (len - (len / 2 + 1)) ≤ a.length := by omega
        have hlow' : ∀ i, i < first + len / 2 + 1 → ∀ h : i < a.length, a[i] < v := by
          intro i hi h
          rcases Nat.lt_or_ge i first with hc | hc
          · exact hlow i hc h
          · exact lt_of_le_of_lt (sorted_le_getElem hs (by omega) hmid) hlt
        have hhigh' : ∀ i, first + len / 2 + 1 + (len - (len / 2 + 1)) ≤ i →
            ∀ h : i < a.length, v ≤ a[i] := by
          intro i hi h
          exact hhigh i (by omega) h
        obtain ⟨g1, g2, g3, g4⟩ := ih (len - (len / 2 + 1)) (first + len / 2 + 1) h1 h2 hlow' hhigh'
        exact ⟨by omega, by omega, g3, g4⟩
      · rw [if_neg hlt]
        have hge : v ≤ a[first + len / 2] := le_of_not_lt hlt
        have h1 : len / 2 ≤ fuel := by omega
        have h2 : first + len / 2 ≤ a.length := by omega
        have hhigh' : ∀ i, first + len / 2 ≤ i → ∀ h : i < a.length, v ≤ a[i] := by
          intro i hi h
          exact le_trans hge (sorted_le_getElem hs hi h)
        obtain ⟨g1, g2, g3, g4⟩ := ih (len / 2) first h1 h2 hlow hhigh'
        exact ⟨g1, by omega, g3, g4⟩

theorem lower_bound_spec (a : List ℚ) (v : ℚ) (hs : a.Pairwise (· ≤ ·)) :
    lower_bound a v ≤ a.length ∧
    (∀ i, i < lower_bound a v → ∀ h : i < a.length, a[i] < v) ∧
    (∀ i, lower_bound a v ≤ i → ∀ h : i < a.length, v ≤ a[i]) := by
  have h := lowerBoundAux_spec a v hs a.length a.length 0 (le_refl _) (by omega)
    (fun i hi _ => absurd hi (Nat.not_lt_zero i))
    (fun i hi h => absurd h (by omega))
  exact ⟨by simpa [lower_bound] using h.2.1,
         by simpa [lower_bound] using h.2.2.1,
         by simpa [lower_bound] using h.2.2.2⟩

theorem lower_bound_eq_firstIdxGe (a : List ℚ) (v : ℚ)
    (hs : a.Pairwise (· ≤ ·)) : lower_bound a v = firstIdxGe a v := by
  obtain ⟨hle, hlow, hhigh⟩ := lower_bound_spec a v hs
  have hfle : firstIdxGe a v ≤ a.length := List.findIdx_le_length _
  rcases Nat.lt_trichotomy (lower_bound a v) (firstIdxGe a v) with hlt | heq | hgt
  · exfalso
    have hl : lower_bound a v < a.length := lt_of_lt_of_le hlt hfle
    have h1 : v ≤ a[lower_bound a v] := hhigh _ (le_refl _) hl
    have h2 := List.not_of_lt_findIdx (p := fun b => decide (v ≤ b)) hlt
    rw [decide_eq_false_iff_not] at h2
    exact h2 h1
  · exact heq
  · exfalso
    have hf : firstIdxGe a v < a.length := lt_of_lt_of_le hgt hle
    have h1 : a[firstIdxGe a v] < v := hlow _ hgt hf
    have h2 : decide (v ≤ a[firstIdxGe a v]) = true :=
      List.findIdx_getElem (w := hf)
    rw [decide_eq_true_iff] at h2
    exact absurd h2 (not_le_of_lt h1)

/-! ### The numbering loop -/

theorem countLoop_cons (D : List ℚ) (counter : Int) (idx : Nat) (b : ℚ)
    (bs : List ℚ) :
    countLoop D counter idx (b :: bs) =
      if idx < D.length ∧ fabs (b - D.getD idx (-1)) < eps then
        1 :: countLoop D 1 (idx + 1) bs
      else
        (counter + 1) :: countLoop D (counter + 1) idx bs := rfl

theorem countLoop_length (D : List ℚ) :
    ∀ (bs : List ℚ) (counter : Int) (idx : Nat),
      (countLoop D counter idx bs).length = bs.length := by
  intro bs
  induction bs with
  | nil => intro c i; rfl
  | cons b bs ih =>
    intro c i
    rw [countLoop_cons]
    by_cases h : i < D.length ∧ fabs (b - D.getD i (-1)) < eps
    · rw [if_pos h, List.length_cons, List.length_cons, ih]
    · rw [if_neg h, List.length_cons, List.length_cons, ih]

theorem forall2_imp_mem {P Q : Int → ℚ → Prop} :
    ∀ {l₁ : List Int} {l₂ : List ℚ}, List.Forall₂ P l₁ l₂ →
      (∀ c b, b ∈ l₂ → P c b → Q c b) → List.Forall₂ Q l₁ l₂ := by
  intro l₁ l₂ h
  induction h with
  | nil => intro _; exact List.Forall₂.nil
  | cons hpb htail ih =>
    intro himp
    exact List.Forall₂.cons (himp _ _ (List.mem_cons_self _ _) hpb)
      (ih (fun c b hb hp => himp c b (List.mem_cons_of_mem _ hb) hp))

/-- Invariant of the numbering loop: starting from any counter `≥ 1` and any
position `idx` in the downbeat list, provided the remaining downbeats all
occur among the remaining beats, the beats are at least `eps` apart and the
downbeats strictly increase, each produced ordinal is `≥ 1` and equals `1`
exactly for the beats that are among the remaining downbeats. -/
theorem countLoop_spec (D : List ℚ) (hD : D.Pairwise (· < ·)) :
    ∀ (bs : List ℚ) (counter : Int) (idx : Nat),
      1 ≤ counter →
      bs.Pairwise (fun a b => a + eps ≤ b) →
      (∀ d ∈ D.drop idx, d ∈ bs) →
      List.Forall₂ (fun c b => 1 ≤ c ∧ (c = 1 ↔ b ∈ D.drop idx))
        (countLoop D counter idx bs) bs := by
  intro bs
  induction bs with
  | nil => intro counter idx _ _ _; exact List.Forall₂.nil
  | cons b bs ih =>
    intro counter idx hcnt hpw hsub
    have hpwtail : bs.Pairwise (fun a b => a + eps ≤ b) :=
      (List.pairwise_cons.mp hpw).2
    have hhead : ∀ x ∈ bs, b + eps ≤ x := (List.pairwise_cons.mp hpw).1
    rw [countLoop_cons]
    by_cases hc : idx < D.length ∧ fabs (b - D.getD idx (-1)) < eps
    · obtain ⟨hidx, heps⟩ := hc
      rw [if_pos ⟨hidx, heps⟩]
      rw [getD_eq_getElem D idx (-1) hidx] at heps
      have hdrop : D.drop idx = D[idx] :: D.drop (idx + 1) :=
        List.drop_eq_getElem_cons hidx
      have hmemD : D[idx] ∈ b :: bs :=
        hsub _ (by rw [hdrop]; exact List.mem_cons_self _ _)
      have hbd : b = D[idx] := by
        rcases List.mem_cons.mp hmemD with h | h
        · exact h.symm
        · exact absurd heps (not_lt_of_le (fabs_sub_ge (Or.inl (hhead _ h))))
      have hDdrop : (D.drop idx).Pairwise (· < ·) :=
        hD.sublist (List.drop_sublist _ _)
      rw [hdrop] at hDdrop
      have hDhead : ∀ x ∈ D.drop (idx + 1), D[idx] < x :=
        (List.pairwise_cons.mp hDdrop).1
      have hheadpred : (1 : Int) ≤ 1 ∧ ((1 : Int) = 1 ↔ b ∈ D.drop idx) := by
        refine ⟨le_refl _, ⟨fun _ => ?_, fun _ => rfl⟩⟩
        rw [hdrop, hbd]
        exact List.mem_cons_self _ _
      have hsub' : ∀ x ∈ D.drop (idx + 1), x ∈ bs := by
        intro x hx
        have hxin : x ∈ D.drop idx := by
          rw [hdrop]; exact List.mem_cons_of_mem _ hx
        rcases List.mem_cons.mp (hsub x hxin) with h | h
        · exfalso
          have h2 : D[idx] < x := hDhead x hx
          rw [h, hbd] at h2
          exact lt_irrefl _ h2
        · exact h
      refine List.Forall₂.cons hheadpred
        (forall2_imp_mem (ih 1 (idx + 1) (le_refl 1) hpwtail hsub') ?_)
      intro c x hx hp
      refine ⟨hp.1, ?_⟩
      rw [hp.2, hdrop]
      constructor
      · intro h; exact List.mem_cons_of_mem _ h
      · intro h
        rcases List.mem_cons.mp h with h | h
        · exfalso
          have hxb := hhead x hx
          rw [h, ← hbd] at hxb
          have := eps_pos
          linarith
        · exact h
    · rw [if_neg hc]
      have hbnot : b ∉ D.drop idx := by
        intro hmem
        by_cases hidx : idx < D.length
        · have hdrop : D.drop idx = D[idx] :: D.drop (idx + 1) :=
            List.drop_eq_getElem_cons hidx
          have hDdrop : (D.drop idx).Pairwise (· < ·) :=
            hD.sublist (List.drop_sublist _ _)
          rw [hdrop] at hDdrop hmem
          have hDhead : ∀ x ∈ D.drop (idx + 1), D[idx] < x :=
            (List.pairwise_cons.mp hDdrop).1
          rcases List.mem_cons.mp hmem with h | h
          · refine hc ⟨hidx, ?_⟩
            rw [getD_eq_getElem D idx (-1) hidx, ← h]
            exact fabs_sub_self_lt b
          · have hDb : D[idx] < b := hDhead _ h
            have hmemD : D[idx] ∈ b :: bs :=
              hsub _ (by rw [hdrop]; exact List.mem_cons_self _ _)
            rcases List.mem_cons.mp hmemD with h2 | h2
            · rw [← h2] at hDb; exact lt_irrefl _ hDb
            · have h3 := hhead _ h2
              have := eps_pos
              linarith
        · rw [List.drop_eq_nil_of_le (by omega)] at hmem
          exact absurd hmem (List.not_mem_nil b)
      have hheadpred :
          (1 : Int) ≤ counter + 1 ∧ ((counter + 1 : Int) = 1 ↔ b ∈ D.drop idx) := by
        refine ⟨by omega, ?_⟩
        constructor
        · intro h; exact absurd h (by omega)
        · intro h; exact absurd h hbnot
      have hsub' : ∀ x ∈ D.drop idx, x ∈ bs := by
        intro x hx
        rcases List.mem_cons.mp (hsub x hx) with h | h
        · exact absurd (h ▸ hx) hbnot
        · exact h
      exact List.Forall₂.cons hheadpred (ih (counter + 1) idx (by omega) hpwtail hsub')

theorem one_le_start_counter (B D : List ℚ) : 1 ≤ (start_counter B D).1 := by
  unfold start_counter
  by_cases h1 : 2 ≤ D.length
  · rw [if_pos h1]
    dsimp only
    by_cases h2 : (lower_bound B (D.getD 0 0) : Int) <
        (lower_bound B (D.getD 1 0) : Int) - (lower_bound B (D.getD 0 0) : Int)
    · rw [if_pos h2]; omega
    · rw [if_neg h2]
  · rw [if_neg h1]

theorem getD_map_range (f : Nat → Int) (n k : Nat) (hk : k < n) :
    (((List.range n).map f).getD k 0) = f k := by
  have hlen : k < ((List.range n).map f).length := by
    rw [List.length_map, List.length_range]; exact hk
  rw [getD_eq_getElem _ k 0 hlen, List.getElem_map, List.getElem_range]

/-- Once the downbeat index is past the end of the downbeat list, the loop
only increments: the ordinals are `counter + 1, counter + 2, …`. -/
theorem countLoop_exhausted (D : List ℚ) :
    ∀ (bs : List ℚ) (counter : Int) (idx : Nat), D.length ≤ idx →
      countLoop D counter idx bs =
        (List.range bs.length).map (fun k : Nat => counter + (k : Int) + 1) := by
  intro bs
  induction bs with
  | nil => intro counter idx _; rfl
  | cons b bs ih =>
    intro counter idx hidx
    rw [countLoop_cons, if_neg (fun h => absurd h.1 (by omega)),
      ih (counter + 1) idx hidx, List.length_cons, List.range_succ_eq_map,
      List.map_cons, List.map_map]
    congr 1
    · push_cast; ring
    · apply List.map_congr_left
      intro k _
      simp only [Function.comp_apply]
      push_cast
      ring

/-- Behaviour of the numbering loop with the single downbeat `d`: the first
ordinal is `1` if the first beat is `d` and `counter + 1` otherwise, and each
later ordinal is `1` at `d` and the predecessor plus one elsewhere.  Needs
the beats at least `eps` apart and `d` among them. -/
theorem countLoop_single (d : ℚ) :
    ∀ (bs : List ℚ) (counter : Int),
      bs.Pairwise (fun a b => a + eps ≤ b) →
      d ∈ bs →
      (countLoop [d] counter 0 bs).getD 0 0 =
        (if bs.getD 0 0 = d then 1 else counter + 1) ∧
      (∀ i, i + 1 < bs.length →
        (countLoop [d] counter 0 bs).getD (i + 1) 0 =
          (if bs.getD (i + 1) 0 = d then 1
           else (countLoop [d] counter 0 bs).getD i 0 + 1)) := by
  intro bs
  induction bs with
  | nil => intro counter _ hmem; exact absurd hmem (List.not_mem_nil d)
  | cons b bs ih =>
    intro counter hpw hmem
    have hpwtail : bs.Pairwise (fun a b => a + eps ≤ b) :=
      (List.pairwise_cons.mp hpw).2
    have hhead : ∀ x ∈ bs, b + eps ≤ x := (List.pairwise_cons.mp hpw).1
    by_cases hbd : b = d
    · have hcond : (0 : Nat) < ([d] : List ℚ).length ∧
          fabs (b - ([d] : List ℚ).getD 0 (-1)) < eps := by
        refine ⟨by simp, ?_⟩
        show fabs (b - d) < eps
        rw [hbd]; exact fabs_sub_self_lt d
      rw [countLoop_cons, if_pos hcond,
        countLoop_exhausted [d] bs 1 1 (le_refl 1)]
      constructor
      · rw [List.getD_cons_zero, List.getD_cons_zero, if_pos hbd]
      · intro i hlen
        have hi : i < bs.length := by
          rw [List.length_cons] at hlen; omega
        have hne : bs.getD i 0 ≠ d := by
          have hin : bs.getD i 0 ∈ bs := by
            rw [getD_eq_getElem bs i 0 hi]; exact List.getElem_mem hi
          have h2 := hhead _ hin
          rw [hbd] at h2
          have := eps_pos
          intro hcontra; rw [hcontra] at h2; linarith
        rw [List.getD_cons_succ, List.getD_cons_succ, if_neg hne,
          getD_map_range _ _ _ hi]
        cases i with
        | zero => rw [List.getD_cons_zero]; norm_num
        | succ j =>
          rw [List.getD_cons_succ, getD_map_range _ _ _ (by omega)]
          push_cast; ring
    · have hmem' : d ∈ bs := by
        rcases List.mem_cons.mp hmem with h | h
        · exact absurd h.symm hbd
        · exact h
      have hcond : ¬ ((0 : Nat) < ([d] : List ℚ).length ∧
          fabs (b - ([d] : List ℚ).getD 0 (-1)) < eps) := by
        intro hcon
        have h2 : fabs (b - d) < eps := hcon.2
        exact absurd h2 (not_lt_of_le (fabs_sub_ge (Or.inl (hhead _ hmem'))))
      rw [countLoop_cons, if_neg hcond]
      obtain ⟨ihhead, ihsucc⟩ := ih (counter + 1) hpwtail hmem'
      constructor
      · rw [List.getD_cons_zero, List.getD_cons_zero, if_neg hbd]
      · intro i hlen
        cases i with
        | zero =>
          rw [List.getD_cons_succ, List.getD_cons_succ, List.getD_cons_zero,
            ihhead]
        | succ j =>
          have hj : j + 1 < bs.length := by
            rw [List.length_cons] at hlen; omega
          rw [List.getD_cons_succ, List.getD_cons_succ, List.getD_cons_succ,
            ihsucc j hj]

/-! ### Remaining helper lemmas for the claims -/

theorem self_eq_map_getD_range (l : List ℚ) :
    l = (List.range l.length).map (fun i => l.getD i 0) := by
  apply List.ext_getElem
  · rw [List.length_map, List.length_range]
  · intro i h1 h2
    rw [List.getElem_map, List.getElem_range,
      getD_eq_getElem l i 0 h1]

theorem foldl_add_eq_sum (f : Nat → ℚ) :
    ∀ (l : List Nat) (init : ℚ),
      l.foldl (fun s x => s + f x) init = init + (l.map f).sum := by
  intro l
  induction l with
  | nil => intro init; simp
  | cons x xs ih =>
    intro init
    rw [List.foldl_cons, ih, List.map_cons, List.sum_cons]
    ring

/-! ### Claims -/

/-- C1: for beats `[0.340, 0.681, 1.023, 1.364, 1.705, 2.047]` and downbeats
`[0.681, 2.047]`, `calculate_beat_counts` returns the ordinal sequence
`[4, 1, 2, 3, 4, 1]`. -/
theorem c1_scenarioA :
    (calculate_beat_counts
      [mkRat 340 1000, mkRat 681 1000, mkRat 1023 1000, mkRat 1364 1000,
       mkRat 1705 1000, mkRat 2047 1000]
      [mkRat 681 1000, mkRat 2047 1000]).1 = [4, 1, 2, 3, 4, 1] := by decide

/-- C2: for ascending beats and at least two downbeats, the initial counter
is computed from `i0` = index of the first beat `≥ downbeats[0]` and `i1` =
index of the first beat `≥ downbeats[1]`: it is `(i1 - i0) - i0` when
`i0 < i1 - i0`, and `1` together with the non-fatal pickup warning
otherwise. -/
theorem c2_pickup_initial_counter (B D : List ℚ)
    (hB : B.Pairwise (· ≤ ·)) (hD : 2 ≤ D.length) :
    start_counter B D =
      (if (firstIdxGe B (D.getD 0 0) : Int) <
          (firstIdxGe B (D.getD 1 0) : Int) - (firstIdxGe B (D.getD 0 0) : Int)
       then ((firstIdxGe B (D.getD 1 0) : Int) -
             (firstIdxGe B (D.getD 0 0) : Int) -
             (firstIdxGe B (D.getD 0 0) : Int), [])
       else (1, [LogMsg.warnPickupLongerThanFirstMeasure])) := by
  unfold start_counter
  rw [if_pos hD, lower_bound_eq_firstIdxGe B (D.getD 0 0) hB,
    lower_bound_eq_firstIdxGe B (D.getD 1 0) hB]

/-- Witness for C2 at the Scenario-A input: `i0 = 1`, `i1 = 5`, giving the
initial counter `3`. -/
theorem c2_pickup_initial_counter_witness :
    start_counter
      [mkRat 340 1000, mkRat 681 1000, mkRat 1023 1000, mkRat 1364 1000,
       mkRat 1705 1000, mkRat 2047 1000]
      [mkRat 681 1000, mkRat 2047 1000] = (3, []) := by
  rw [c2_pickup_initial_counter _ _ (by decide) (by decide)]
  decide

/-- C3 counterexample: for beats `[1, 2]` and the downbeat `[3]` — which is
not within `eps` of any beat — `calculate_beat_counts` does not fail: it
prints a non-fatal error line and returns an all-zero ordinal vector of full
length, so the caller still receives a numbering result. -/
theorem c3_counterexample :
    (∀ d ∈ ([mkRat 3 1] : List ℚ), ∀ b ∈ ([mkRat 1 1, mkRat 2 1] : List ℚ),
        ¬ fabs (d - b) < eps) ∧
    calculate_beat_counts [mkRat 1 1, mkRat 2 1] [mkRat 3 1] =
      ([0, 0], [LogMsg.errorNotAllDownbeatsAreBeats]) := by decide

/-- C3 amended: when some downbeat is not (exactly) among the beats, the
measure numberer emits the error diagnostic and returns an all-zero ordinal
vector of the same length as `beats`; it neither aborts processing nor drops
the downbeat. -/
theorem c3_unmatched_downbeat (B D : List ℚ) (hB : B ≠ []) (hD : D ≠ [])
    (h : ∃ d ∈ D, d ∉ B) :
    calculate_beat_counts B D =
      (List.replicate B.length 0, [LogMsg.errorNotAllDownbeatsAreBeats]) := by
  have h1 : ¬ (B.isEmpty ∨ D.isEmpty) := by
    simp only [List.isEmpty_iff]
    push_neg
    exact ⟨hB, hD⟩
  have h2 : ¬ ∀ db ∈ D, db ∈ B := by
    intro hall
    obtain ⟨d, hd, hnb⟩ := h
    exact hnb (hall d hd)
  unfold calculate_beat_counts
  rw [if_neg h1, if_neg h2]

/-- Witness for the amended C3. -/
theorem c3_unmatched_downbeat_witness :
    calculate_beat_counts [mkRat 1 1, mkRat 2 1] [mkRat 5 2] =
      (List.replicate 2 0, [LogMsg.errorNotAllDownbeatsAreBeats]) := by
  rw [c3_unmatched_downbeat [mkRat 1 1, mkRat 2 1] [mkRat 5 2]
    (by decide) (by decide) (by decide)]
  rfl

/-- C4 counterexample: for ascending beats `[0, 1]` and the single downbeat
`1 + 1e-9` — strictly ascending and within `eps` of the beat `1`, so a valid
input in the claim's sense — the returned ordinals are `[0, 0]`: the exact
set-membership check fails, so not every ordinal is `≥ 1` and no ordinal is
`1` at the downbeat. -/
theorem c4_counterexample :
    List.Pairwise (· < ·) ([mkRat 0 1, mkRat 1 1] : List ℚ) ∧
    (∀ d ∈ ([mkRat 1000000001 1000000000] : List ℚ),
       ∃ b ∈ ([mkRat 0 1, mkRat 1 1] : List ℚ), fabs (d - b) < eps) ∧
    ¬ (∀ c ∈ (calculate_beat_counts [mkRat 0 1, mkRat 1 1]
          [mkRat 1000000001 1000000000]).1, 1 ≤ c) := by decide

/-- C4 amended: for beats pairwise at least `eps` apart, strictly ascending
nonempty downbeats each exactly equal to some beat, the output has exactly
one ordinal per input beat, every ordinal is `≥ 1`, and an ordinal equals `1`
exactly at the beats that are downbeats. -/
theorem c4_output_invariants (B D : List ℚ)
    (hB : B.Pairwise (fun a b => a + eps ≤ b))
    (hD : D.Pairwise (· < ·))
    (hne : D ≠ [])
    (hsub : ∀ d ∈ D, d ∈ B) :
    ((calculate_beat_counts B D).1).length = B.length ∧
    List.Forall₂ (fun c b => 1 ≤ c ∧ (c = 1 ↔ b ∈ D))
      ((calculate_beat_counts B D).1) B := by
  obtain ⟨d, hd⟩ := List.exists_mem_of_ne_nil D hne
  have hBne : B ≠ [] := by
    intro hBnil
    rw [hBnil] at hsub
    exact absurd (hsub d hd) (List.not_mem_nil d)
  have h1 : ¬ (B.isEmpty ∨ D.isEmpty) := by
    simp only [List.isEmpty_iff]
    push_neg
    exact ⟨hBne, hne⟩
  have hloop := countLoop_spec D hD B (start_counter B D).1 0
    (one_le_start_counter B D) hB (by simpa using hsub)
  rw [List.drop_zero] at hloop
  have hcalc : (calculate_beat_counts B D).1 =
      countLoop D (start_counter B D).1 0 B := by
    unfold calculate_beat_counts
    rw [if_neg h1, if_pos hsub]
  rw [hcalc]
  exact ⟨countLoop_length D B _ 0, hloop⟩

/-- Witness for the amended C4 at the Scenario-A input. -/
theorem c4_output_invariants_witness :
    ((calculate_beat_counts
      [mkRat 340 1000, mkRat 681 1000, mkRat 1023 1000, mkRat 1364 1000,
       mkRat 1705 1000, mkRat 2047 1000]
      [mkRat 681 1000, mkRat 2047 1000]).1).length =
      ([mkRat 340 1000, mkRat 681 1000, mkRat 1023 1000, mkRat 1364 1000,
        mkRat 1705 1000, mkRat 2047 1000] : List ℚ).length ∧
    List.Forall₂ (fun c b => 1 ≤ c ∧
        (c = 1 ↔ b ∈ ([mkRat 681 1000, mkRat 2047 1000] : List ℚ)))
      ((calculate_beat_counts
        [mkRat 340 1000, mkRat 681 1000, mkRat 1023 1000, mkRat 1364 1000,
         mkRat 1705 1000, mkRat 2047 1000]
        [mkRat 681 1000, mkRat 2047 1000]).1)
      [mkRat 340 1000, mkRat 681 1000, mkRat 1023 1000, mkRat 1364 1000,
       mkRat 1705 1000, mkRat 2047 1000] :=
  c4_output_invariants _ _ (by decide) (by decide) (by decide) (by decide)

/-- C5: for any interleaved buffer and channel count `c ≥ 1` (a C `int`, so
`c < 2^31`), the mono-mixing step produces, for each of the
`⌊size / c⌋` frames, the arithmetic mean — sum divided by `c` — of that
frame's `c` channel samples. -/
theorem c5_mono_mean (audio : List ℚ) (c : Int) (h1 : 1 ≤ c)
    (h2 : c < 2 ^ 31) :
    convert_to_mono audio c =
      some ((List.range (audio.length / c.toNat)).map fun i =>
        (((List.range c.toNat).map fun ch =>
            audio.getD (i * c.toNat + ch) 0).sum) / (c : ℚ)) := by
  by_cases hc1 : c = 1
  · subst hc1
    unfold convert_to_mono
    rw [if_pos rfl]
    congr 1
    apply List.ext_getElem
    · rw [List.length_map, List.length_range, Int.toNat_one, Nat.div_one]
    · intro i hi1 hi2
      rw [List.getElem_map, List.getElem_range]
      have hr1 : List.range 1 = [0] := rfl
      simp only [Int.toNat_one, hr1, List.map_cons, List.map_nil,
        List.sum_cons, List.sum_nil, Nat.mul_one, Nat.add_zero, add_zero,
        Int.cast_one, div_one]
      rw [getD_eq_getElem audio i 0 hi1]
  · have hc0 : c ≠ 0 := by omega
    unfold convert_to_mono
    rw [if_neg hc1, if_neg hc0]
    have hcz : (c % (2 : Int) ^ 64).toNat = c.toNat := by
      have hpow : (2 : Int) ^ 64 = 18446744073709551616 := by norm_num
      have hmod : c % (2 : Int) ^ 64 = c := by
        apply Int.emod_eq_of_lt (by omega)
        rw [hpow]
        have hpow31 : (2 : Int) ^ 31 = 2147483648 := by norm_num
        rw [hpow31] at h2
        omega
      rw [hmod]
    dsimp only
    rw [hcz]
    congr 1
    apply List.map_congr_left
    intro i _
    rw [foldl_add_eq_sum (fun ch => audio.getD (i * c.toNat + ch) 0)
      (List.range c.toNat) 0, zero_add]

/-- Witness for C5: two interleaved stereo samples `[1, 3]` average to
`[2]`. -/
theorem c5_mono_mean_witness :
    convert_to_mono [mkRat 1 1, mkRat 3 1] 2 =
      some ((List.range (([mkRat 1 1, mkRat 3 1] : List ℚ).length /
          (2 : Int).toNat)).map fun i =>
        (((List.range (2 : Int).toNat).map fun ch =>
            ([mkRat 1 1, mkRat 3 1] : List ℚ).getD
              (i * (2 : Int).toNat + ch) 0).sum) / ((2 : Int) : ℚ)) :=
  c5_mono_mean [mkRat 1 1, mkRat 3 1] 2 (by decide) (by decide)

/-- C6 counterexample: called with channel count `-1` (which is `< 1`) and
sample rate 22050, `process_audio` does not fail with any error: the mono
mixer silently produces an empty buffer (`size / size_t(-1) = 0` frames) and
the pipeline runs to completion, returning a `BeatResult`.  No `InvalidInput`
check exists in the source. -/
theorem c6_counterexample :
    process_audio (fun _ _ => none) (fun _ => Except.ok ([], []))
      [mkRat 1 2] 22050 (-1) =
    ProcOutcome.ok ⟨[], [], []⟩ := by decide

/-- C6 amended: `BeatThis::process_audio` performs no input validation.
Channel count `0` hits a division by zero (undefined behaviour); any other
channel count `< 1` silently yields an empty mono buffer and the call behaves
exactly like a 1-channel call on an empty buffer; a non-positive sample rate
is passed straight to the resampler, whose failure surfaces as the generic
runtime error "Failed to resample audio" (wrapped as a processing error),
not as `InvalidInput`. -/
theorem c6_no_input_validation :
    (∀ (r : List ℚ → Int → Option (List ℚ))
       (p : List ℚ → Except String (List ℚ × List ℚ))
       (audio : List ℚ) (sr : Int),
        process_audio r p audio sr 0 = ProcOutcome.undefinedBehavior) ∧
    (∀ (r : List ℚ → Int → Option (List ℚ))
       (p : List ℚ → Except String (List ℚ × List ℚ))
       (audio : List ℚ) (sr ch : Int),
        ch < 0 → -(2 ^ 31) ≤ ch → audio.length < 2 ^ 63 →
        process_audio r p audio sr ch = process_audio r p [] sr 1) ∧
    (∀ (r : List ℚ → Int → Option (List ℚ))
       (p : List ℚ → Except String (List ℚ × List ℚ))
       (audio : List ℚ) (sr : Int),
        sr ≤ 0 → r audio sr = none →
        process_audio r p audio sr 1 =
          ProcOutcome.error "Processing error: Failed to resample audio") := by
  refine ⟨?_, ?_, ?_⟩
  · intro r p audio sr
    unfold process_audio convert_to_mono
    rw [if_neg (by decide : ¬ (0 : Int) = 1), if_pos rfl]
  · intro r p audio sr ch hneg hlow hlen
    have hch1 : ch ≠ 1 := by omega
    have hch0 : ch ≠ 0 := by omega
    have hpow : (2 : Int) ^ 64 = 18446744073709551616 := by norm_num
    have hpow31 : (2 : Int) ^ 31 = 2147483648 := by norm_num
    have hpow63 : (2 : Nat) ^ 63 = 9223372036854775808 := by norm_num
    rw [hpow31] at hlow
    rw [hpow63] at hlen
    have hmono : convert_to_mono audio ch = some [] := by
      unfold convert_to_mono
      rw [if_neg hch1, if_neg hch0]
      dsimp only
      have hmod : ch % (2 : Int) ^ 64 = ch + 18446744073709551616 := by
        rw [hpow]
        omega
      have hdiv : audio.length / (ch % (2 : Int) ^ 64).toNat = 0 := by
        apply Nat.div_eq_of_lt
        rw [hmod]
        omega
      rw [hdiv]
      rfl
    have hmono1 : convert_to_mono [] 1 = some [] := by
      unfold convert_to_mono
      rw [if_pos rfl]
    unfold process_audio
    rw [hmono, hmono1]
  · intro r p audio sr hsr hr
    have hne : sr ≠ 22050 := by omega
    have hmono : convert_to_mono audio 1 = some audio := by
      unfold convert_to_mono
      rw [if_pos rfl]
    unfold process_audio
    rw [hmono]
    dsimp only
    rw [if_pos hne, hr]

/-- Witness for the amended C6: a call with channel count `-1` behaves like a
1-channel call on the empty buffer. -/
theorem c6_no_input_validation_witness :
    process_audio (fun _ _ => none) (fun _ => Except.ok ([], []))
      [mkRat 1 2] 22050 (-1) =
    process_audio (fun _ _ => none) (fun _ => Except.ok ([], []))
      [] 22050 1 :=
  c6_no_input_validation.2.1 _ _ [mkRat 1 2] 22050 (-1)
    (by decide) (by decide) (by decide)

/-- C7: the measure numberer is pure and deterministic — two runs on
identical `(beats, downbeats)` inputs return identical ordinals (and
identical diagnostics). -/
theorem c7_deterministic (b d b' d' : List ℚ) (hb : b = b') (hd : d = d') :
    calculate_beat_counts b d = calculate_beat_counts b' d' := by
  rw [hb, hd]

/-- Witness for C7. -/
theorem c7_deterministic_witness :
    calculate_beat_counts [mkRat 1 2] [mkRat 1 2] =
      calculate_beat_counts [mkRat 1 2] [mkRat 1 2] :=
  c7_deterministic _ _ _ _ rfl rfl

/-- C8: with a single downbeat `d` (beats at least `eps` apart, `d` among
them), the initial counter is `1` with the fewer-than-two-downbeats warning,
there is one ordinal per beat, the first ordinal is `1` at `d` and `2`
otherwise, and each later ordinal resets to `1` at `d` and increments the
previous ordinal by one elsewhere. -/
theorem c8_single_downbeat (B : List ℚ) (d : ℚ)
    (hB : B.Pairwise (fun a b => a + eps ≤ b))
    (hd : d ∈ B) :
    start_counter B [d] = (1, [LogMsg.warnFewerThanTwoDownbeats]) ∧
    ((calculate_beat_counts B [d]).1).length = B.length ∧
    ((calculate_beat_counts B [d]).1).getD 0 0 =
      (if B.getD 0 0 = d then 1 else 2) ∧
    (∀ i, i + 1 < B.length →
      ((calculate_beat_counts B [d]).1).getD (i + 1) 0 =
        (if B.getD (i + 1) 0 = d then 1
         else ((calculate_beat_counts B [d]).1).getD i 0 + 1)) := by
  have hsc : start_counter B [d] = (1, [LogMsg.warnFewerThanTwoDownbeats]) := by
    unfold start_counter
    rw [if_neg (by simp)]
  have hBne : B ≠ [] := List.ne_nil_of_mem hd
  have h1 : ¬ (B.isEmpty ∨ ([d] : List ℚ).isEmpty) := by
    simp only [List.isEmpty_iff]
    push_neg
    exact ⟨hBne, by simp⟩
  have hsubs : ∀ db ∈ ([d] : List ℚ), db ∈ B := by
    intro db hdb
    rcases List.mem_cons.mp hdb with h | h
    · rw [h]; exact hd
    · exact absurd h (List.not_mem_nil db)
  have hcalc : (calculate_beat_counts B [d]).1 = countLoop [d] 1 0 B := by
    unfold calculate_beat_counts
    rw [if_neg h1, if_pos hsubs]
    dsimp only
    rw [hsc]
  obtain ⟨hh, hs⟩ := countLoop_single d B 1 hB hd
  rw [hcalc]
  refine ⟨hsc, countLoop_length _ _ _ _, ?_, hs⟩
  rw [hh]
  norm_num

/-- Witness for C8: beats `[1, 2, 3]`, single downbeat `2`. -/
theorem c8_single_downbeat_witness :
    start_counter [mkRat 1 1, mkRat 2 1, mkRat 3 1] [mkRat 2 1] =
      (1, [LogMsg.warnFewerThanTwoDownbeats]) ∧
    ((calculate_beat_counts [mkRat 1 1, mkRat 2 1, mkRat 3 1]
        [mkRat 2 1]).1).length =
      ([mkRat 1 1, mkRat 2 1, mkRat 3 1] : List ℚ).length ∧
    ((calculate_beat_counts [mkRat 1 1, mkRat 2 1, mkRat 3 1]
        [mkRat 2 1]).1).getD 0 0 =
      (if ([mkRat 1 1, mkRat 2 1, mkRat 3 1] : List ℚ).getD 0 0 = mkRat 2 1
       then 1 else 2) ∧
    (∀ i, i + 1 < ([mkRat 1 1, mkRat 2 1, mkRat 3 1] : List ℚ).length →
      ((calculate_beat_counts [mkRat 1 1, mkRat 2 1, mkRat 3 1]
          [mkRat 2 1]).1).getD (i + 1) 0 =
        (if ([mkRat 1 1, mkRat 2 1, mkRat 3 1] : List ℚ).getD (i + 1) 0 =
            mkRat 2 1
         then 1
         else ((calculate_beat_counts [mkRat 1 1, mkRat 2 1, mkRat 3 1]
             [mkRat 2 1]).1).getD i 0 + 1)) :=
  c8_single_downbeat [mkRat 1 1, mkRat 2 1, mkRat 3 1] (mkRat 2 1)
    (by decide) (by decide)

/-- C9: with a non-empty beat list and an empty downbeat list,
`calculate_beat_counts` returns early with an all-zero vector of the same
length as the beats, emitting no diagnostic at all. -/
theorem c9_empty_downbeats (B D : List ℚ) (hB : B ≠ []) (hD : D = []) :
    calculate_beat_counts B D = (List.replicate B.length 0, []) := by
  subst hD
  unfold calculate_beat_counts
  have hemp : ([] : List ℚ).isEmpty = true := rfl
  rw [if_pos (Or.inr hemp)]

/-- Witness for C9. -/
theorem c9_empty_downbeats_witness :
    calculate_beat_counts [mkRat 7 2] [] = ([0], []) := by
  rw [c9_empty_downbeats [mkRat 7 2] [] (by decide) rfl]
  rfl

/-- C10: `BeatThis_process_audio` with a null context returns the
zero-initialised result (null beat and downbeat pointers, zero counts)
regardless of the audio arguments, the resampler and the inference pipeline —
no processing stage is invoked. -/
theorem c10_null_context (Ctx : Type)
    (resampler : List ℚ → Int → Option (List ℚ))
    (pipeline : Ctx → List ℚ → Except String (List ℚ × List ℚ))
    (audio : List ℚ) (ns sr ch : Int) :
    BeatThis_process_audio (none : Option Ctx) resampler pipeline
        audio ns sr ch =
      ⟨none, 0, none, 0⟩ := rfl

end BeatThisCpp
